import Mathlib

/-!
Verification of the lazy-ZIP-over-HTTP stream (`lazyzip.py`).

The development shallowly embeds the program:

* the sparse-interval download cache: the parallel lists `_left` / `_right`
  of interval endpoints maintained by `LazyZipOverHTTP._merge` and
  `LazyZipOverHTTP._download` become a `Tracker` holding two `List Int`;
* `bisect_left` / `bisect_right` from Python's standard library are modelled
  by their specification on the sorted lists the tracker maintains: the
  insertion point returned by the binary search equals the length of the
  longest front run of elements below (resp. not above) the probe;
* `_merge` becomes `mergeGaps` plus the slice replacement in `downloadPure`;
* the HTTP transport is a parameter `net : Int → Int → Bool` telling whether
  the ranged fetch of a closed interval succeeds; issued fetches are logged
  in a ghost field `St.fetched`;
* the archive-directory parser (`ZipFile`) is an abstract consumer: a verdict
  `oracle : Tracker → Bool` of the mirrored coverage (it raises `BadZipFile`
  iff the verdict is `false`), together with an arbitrary cursor displacement
  `pmove` describing the seeks/reads it performs; `St.attempts` counts, as
  ghost state, how many times the parser was invoked;
* `_stay` (save the cursor, restore it on every exit path) is written out
  explicitly in `downloadR` and `checkZipLoop`;
* Python exceptions are explicit `Bool` success flags / `Except` results.
-/

namespace LazyZip

/-- The interval tracker: the parallel lists `self._left` and `self._right`
of `LazyZipOverHTTP`, holding the starts resp. the inclusive ends of the
byte ranges already mirrored. -/
@[ext]
structure Tracker where
  left : List Int
  right : List Int
deriving DecidableEq, Repr

/-- The zipped view of the two parallel endpoint lists. -/
def Tracker.pairs (t : Tracker) : List (Int × Int) :=
  t.left.zip t.right

/-- `bisect.bisect_left(xs, x)`: on the sorted lists the tracker maintains,
the insertion point equals the length of the longest front run of elements
strictly below `x`. -/
def bisectLeft (xs : List Int) (x : Int) : Nat :=
  (xs.takeWhile (fun y => decide (y < x))).length

/-- `bisect.bisect_right(xs, x)`: on the sorted lists the tracker maintains,
the insertion point equals the length of the longest front run of elements
not above `x`. -/
def bisectRight (xs : List Int) (x : Int) : Nat :=
  (xs.takeWhile (fun y => decide (y ≤ x))).length

/-- The gap-emitting loop of `LazyZipOverHTTP._merge`:

    for j, k in zip(lslice, rslice):
        if j > i:
            yield i, j - 1
        i = k + 1
    if i <= end:
        yield i, end
-/
def mergeGaps (i : Int) (ps : List (Int × Int)) (e : Int) : List (Int × Int) :=
  match ps with
  | [] => if i ≤ e then [(i, e)] else []
  | (j, k) :: rest => (if i < j then [(i, j - 1)] else []) ++ mergeGaps (k + 1) rest e

/-- `LazyZipOverHTTP._download`'s bookkeeping combined with `_merge`: locate
the touched slice with the two bisections, emit the gaps to fetch, and
replace the touched slice of both endpoint lists by the single merged
interval (`self._left[left:right], self._right[left:right] = [start], [end]`;
a Python slice assignment with `right < left` inserts at `left`, hence the
`max l r` in the drop). Returns the gap list and the updated tracker. -/
def downloadPure (t : Tracker) (a b : Int) : List (Int × Int) × Tracker :=
  let l := bisectLeft t.right a
  let r := bisectRight t.left b
  let lsl := (t.left.drop l).take (r - l)
  let rsl := (t.right.drop l).take (r - l)
  let s := min a (lsl.headD a)
  let e := max b (rsl.getLastD b)
  (mergeGaps s (lsl.zip rsl) e,
   ⟨t.left.take l ++ s :: t.left.drop (max l r),
    t.right.take l ++ e :: t.right.drop (max l r)⟩)

/-- A byte offset is covered by the tracker: it lies in one of the recorded
closed intervals. -/
def covers (t : Tracker) (z : Int) : Prop :=
  ∃ p ∈ t.pairs, p.1 ≤ z ∧ z ≤ p.2

instance coversDecidable (t : Tracker) (z : Int) : Decidable (covers t z) :=
  inferInstanceAs (Decidable (∃ p ∈ t.pairs, p.1 ≤ z ∧ z ≤ p.2))

/-- The tracker invariant: both endpoint lists have the same length, the
recorded intervals are pairwise disjoint and listed in increasing order
(`end_i < start_{i+1}`), and each interval is well formed. -/
def Inv (t : Tracker) : Prop :=
  t.left.length = t.right.length ∧
  t.pairs.Pairwise (fun p q => p.2 < q.1) ∧
  ∀ p ∈ t.pairs, p.1 ≤ p.2

instance invDecidable (t : Tracker) : Decidable (Inv t) :=
  inferInstanceAs (Decidable (_ ∧ _ ∧ _))

/-- Folding a sequence of `reserve`/download requests over a tracker,
recording only the interval bookkeeping. -/
def runReserves (reqs : List (Int × Int)) (t : Tracker) : Tracker :=
  reqs.foldl (fun acc p => (downloadPure acc p.1 p.2).2) t

/-- The same slice computation as `downloadPure`, phrased on the zipped
pair list; the bridge lemma below shows `downloadPure` factors through it
whenever the two endpoint lists have equal length and the invariant holds. -/
def reservePairs (ps : List (Int × Int)) (a b : Int) :
    List (Int × Int) × List (Int × Int) :=
  let P := ps.takeWhile (fun p => decide (p.2 < a))
  let M := (ps.dropWhile (fun p => decide (p.2 < a))).takeWhile (fun p => decide (p.1 ≤ b))
  let S := (ps.dropWhile (fun p => decide (p.2 < a))).dropWhile (fun p => decide (p.1 ≤ b))
  let s := min a ((M.map Prod.fst).headD a)
  let e := max b ((M.map Prod.snd).getLastD b)
  (mergeGaps s M e, P ++ (s, e) :: S)

/-- The observable state of a `LazyZipOverHTTP` object: the interval tracker,
the cursor of the mirror file, the negotiated total length, the configured
`chunk_size`, plus ghost instrumentation — the ordered log of issued ranged
fetches and the number of directory-parse attempts. -/
structure St where
  tr : Tracker
  pos : Int
  length : Int
  chunk : Int
  fetched : List (Int × Int)
  attempts : Nat
deriving DecidableEq, Repr

/-- State right after `__post_init__`: zero length, empty tracker, cursor at
the origin, nothing fetched. -/
def initSt (chunk : Int) : St :=
  ⟨⟨[], []⟩, 0, 0, chunk, [], 0⟩

/-- The fetch loop of `_download`: each gap becomes one ranged request
(`self._stream_response(start, end)`); `response.raise_for_status()` aborts
the loop on the first transport failure, after that request was issued.
Returns the requests actually issued and whether all of them succeeded. -/
def fetchIssued (net : Int → Int → Bool) : List (Int × Int) → List (Int × Int) × Bool
  | [] => ([], true)
  | g :: rest =>
      if net g.1 g.2 then
        let p := fetchIssued net rest
        (g :: p.1, p.2)
      else ([g], false)

/-- Body of `_download` inside the `_stay` block. On success the generator
`_merge` is exhausted, so its final slice assignment runs and the tracker is
updated; writing a gap leaves the file cursor one past its end. On a
transport failure the generator is abandoned before the slice assignment,
so the endpoint lists are left unchanged. -/
def downloadBody (net : Int → Int → Bool) (a b : Int) (s : St) : St × Bool :=
  let g := (downloadPure s.tr a b).1
  let t' := (downloadPure s.tr a b).2
  let iss := (fetchIssued net g).1
  let ok := (fetchIssued net g).2
  let posOk := ((iss.map Prod.snd).getLastD (s.pos - 1)) + 1
  let posFail := ((iss.dropLast.map Prod.snd).getLastD (s.pos - 1)) + 1
  if ok then
    ({ s with tr := t', fetched := s.fetched ++ iss, pos := posOk }, true)
  else
    ({ s with fetched := s.fetched ++ iss, pos := posFail }, false)

/-- `_download(start, end)`: the body runs under `with self._stay()`, which
records the cursor and seeks back to it on every exit path, error included. -/
def downloadR (net : Int → Int → Bool) (a b : Int) (s : St) : St × Bool :=
  let p := s.pos
  let r := downloadBody net a b s
  ({ r.1 with pos := p }, r.2)

/-- The descending probe starts of `_check_zip`:
`reversed(range(0, self._length - 1, self.chunk_size))`. -/
def probeStarts (len chunk : Int) : List Int :=
  ((List.range (((len - 1).toNat + chunk.toNat - 1) / chunk.toNat)).map
    (fun k : Nat => (k : Int) * chunk)).reverse

/-- The loop of `_check_zip`. Per start: `_download(start, end)` (a transport
error propagates), then under `_stay` one attempt to construct the directory
parser against the mirror — a `BadZipFile` verdict is swallowed and probing
continues; on success the loop breaks. The parser is an abstract consumer:
`oracle` is its verdict on the mirrored coverage, `pmove` the cursor
displacement its seeks and reads cause before `_stay` restores the cursor. -/
def checkZipLoop (net : Int → Int → Bool) (oracle : Tracker → Bool)
    (pmove : Tracker → Int → Int) : List Int → St → St × Bool
  | [], s => (s, true)
  | st :: rest, s =>
      let r := downloadR net st (s.length - 1) s
      let s₁ := r.1
      if r.2 then
        let p := s₁.pos
        let s₂ := { s₁ with pos := pmove s₁.tr s₁.pos, attempts := s₁.attempts + 1 }
        let s₃ := { s₂ with pos := p }
        if oracle s₁.tr then (s₃, true)
        else checkZipLoop net oracle pmove rest s₃
      else (s₁, false)

/-- `_check_zip`: probe backwards from the chunk closest to the end. -/
def checkZip (net : Int → Int → Bool) (oracle : Tracker → Bool)
    (pmove : Tracker → Int → Int) (s : St) : St × Bool :=
  checkZipLoop net oracle pmove (probeStarts s.length s.chunk) s

/-- `read(size)`. Computes the read-ahead window, downloads it, then reads
from the mirror at the cursor, advancing it. The second component is the
offset window `[off, off + cnt)` of the bytes handed back to the caller
(the mirror file has size `length`, so reads clamp there); the flag reports
whether the download succeeded (a transport error propagates out of `read`). -/
def readF (net : Int → Int → Bool) (size : Int) (s : St) : St × (Int × Int) × Bool :=
  let downloadSize := max size s.chunk
  let start := s.pos
  let len := s.length
  let stop := if size < 0 then len else min (start + downloadSize) len
  let dstart := max 0 (stop - downloadSize)
  let r := downloadR net dstart (stop - 1) s
  let s₁ := r.1
  if r.2 then
    let cnt := if size < 0 then max 0 (len - s₁.pos) else min size (max 0 (len - s₁.pos))
    ({ s₁ with pos := s₁.pos + cnt }, (s₁.pos, cnt), true)
  else (s₁, (s₁.pos, 0), false)

/-- Character-list version of Python's `in` test for substrings, used by
`"bytes" not in head.headers.get("Accept-Ranges", "none")`. -/
def frontMatch : List Char → List Char → Bool
  | [], _ => true
  | _ :: _, [] => false
  | c :: cs, d :: ds => c == d && frontMatch cs ds

/-- Substring containment on character lists. -/
def hasSub (pat : List Char) : List Char → Bool
  | [] => frontMatch pat []
  | c :: rest => frontMatch pat (c :: rest) || hasSub pat rest

/-- The characters of the token looked for in the `Accept-Ranges` header. -/
def bytesChars : List Char :=
  "bytes".data

/-- The default used when the `Accept-Ranges` header is absent. -/
def noneChars : List Char :=
  "none".data

/-- The metadata (HEAD) response: status code, parsed `Content-Length`,
and the raw `Accept-Ranges` header if present. -/
structure HeadResp where
  status : Nat
  contentLength : Int
  acceptRanges : Option (List Char)

/-- The ways opening the stream can fail: `raise_for_status` on the HEAD
response, the `assert head.status_code == 200`, the
`HTTPRangeRequestUnsupportedError`, or a transport error from a ranged
fetch during probing. -/
inductive OpenErr
  | httpStatus
  | notOk200
  | rangeUnsupported
  | transport
deriving DecidableEq, Repr

/-- `__aenter__`: HEAD request, status checks, length negotiation and mirror
sizing, the range-support check (raising before any ranged fetch when the
header lacks the token), then `_check_zip`. The error carries the object
state at raise time so the ghost fetch log stays observable. -/
def aenter (net : Int → Int → Bool) (oracle : Tracker → Bool)
    (pmove : Tracker → Int → Int) (chunk : Int) (head : HeadResp) :
    Except (OpenErr × St) St :=
  if 400 ≤ head.status then .error (.httpStatus, initSt chunk)
  else if head.status ≠ 200 then .error (.notOk200, initSt chunk)
  else
    let s₁ := { initSt chunk with length := head.contentLength }
    if hasSub bytesChars (head.acceptRanges.getD noneChars) then
      let r := checkZip net oracle pmove s₁
      if r.2 then .ok r.1 else .error (.transport, r.1)
    else .error (.rangeUnsupported, s₁)

/-- Whether opening completed without an exception. -/
def openOk (r : Except (OpenErr × St) St) : Bool :=
  match r with
  | .ok _ => true
  | .error _ => false

/-- The object state at the end of `__aenter__`, successful or not. -/
def openSt (r : Except (OpenErr × St) St) : St :=
  match r with
  | .ok s => s
  | .error e => e.2

/-- The integer offsets of the closed range `[a, b]`, as a list. -/
def intRange (a b : Int) : List Int :=
  (List.range (b - a + 1).toNat).map (fun k : Nat => a + (k : Int))

/-- Executable scan: every offset of `[a, b]` is covered by the tracker. -/
def coveredUpTo (t : Tracker) (a b : Int) : Bool :=
  (intRange a b).all (fun z => decide (covers t z))

/-! ### The gap-emitting loop -/

/-- Every gap emitted by the merge loop is a well-formed subrange of the
span `[i, e]`. -/
theorem mergeGaps_bounds :
    ∀ (ps : List (Int × Int)) (i e : Int),
      ps.Pairwise (fun p q => p.2 < q.1) →
      (∀ p ∈ ps, p.1 ≤ p.2) →
      (∀ p ∈ ps, i ≤ p.1) →
      (∀ p ∈ ps, p.2 ≤ e) →
      ∀ q ∈ mergeGaps i ps e, i ≤ q.1 ∧ q.1 ≤ q.2 ∧ q.2 ≤ e
  | [], i, e, _, _, _, _ => by
      intro q hq
      by_cases hie : i ≤ e
      · simp only [mergeGaps, if_pos hie, List.mem_singleton] at hq
        subst hq
        exact ⟨le_refl _, hie, le_refl _⟩
      · simp [mergeGaps, if_neg hie] at hq
  | (j, k) :: rest, i, e, hpw, hle, hi, he => by
      intro q hq
      have hij : i ≤ j := hi (j, k) (List.mem_cons_self _ _)
      have hjk : j ≤ k := hle (j, k) (List.mem_cons_self _ _)
      have hke : k ≤ e := he (j, k) (List.mem_cons_self _ _)
      have hrest : ∀ p ∈ rest, k < p.1 := by
        intro p hp
        exact (List.pairwise_cons.mp hpw).1 p hp
      simp only [mergeGaps, List.mem_append] at hq
      rcases hq with hq | hq
      · by_cases hlt : i < j
        · simp only [if_pos hlt, List.mem_singleton] at hq
          subst hq
          exact ⟨le_refl _, by omega, by omega⟩
        · simp [if_neg hlt] at hq
      · have ih := mergeGaps_bounds rest (k + 1) e
          (List.pairwise_cons.mp hpw).2
          (fun p hp => hle p (List.mem_cons_of_mem _ hp))
          (fun p hp => by have := hrest p hp; omega)
          (fun p hp => he p (List.mem_cons_of_mem _ hp))
          q hq
        exact ⟨by omega, ih.2.1, ih.2.2⟩

/-- A byte offset lies in some emitted gap exactly when it lies in the span
`[i, e]` but in none of the touched intervals: the loop emits precisely the
missing subranges. -/
theorem mergeGaps_cover (z : Int) :
    ∀ (ps : List (Int × Int)) (i e : Int),
      ps.Pairwise (fun p q => p.2 < q.1) →
      (∀ p ∈ ps, p.1 ≤ p.2) →
      (∀ p ∈ ps, i ≤ p.1) →
      (∀ p ∈ ps, p.2 ≤ e) →
      ((∃ q ∈ mergeGaps i ps e, q.1 ≤ z ∧ z ≤ q.2) ↔
        (i ≤ z ∧ z ≤ e ∧ ¬ ∃ p ∈ ps, p.1 ≤ z ∧ z ≤ p.2))
  | [], i, e, _, _, _, _ => by
      by_cases hie : i ≤ e
      · simp [mergeGaps, if_pos hie]
      · simp only [mergeGaps, if_neg hie]
        simp only [List.not_mem_nil, false_and, exists_false, not_false_iff, and_true]
        constructor
        · intro h
          exact absurd h (by simp)
        · intro h
          omega
  | (j, k) :: rest, i, e, hpw, hle, hi, he => by
      have hij : i ≤ j := hi (j, k) (List.mem_cons_self _ _)
      have hjk : j ≤ k := hle (j, k) (List.mem_cons_self _ _)
      have hke : k ≤ e := he (j, k) (List.mem_cons_self _ _)
      have hrest : ∀ p ∈ rest, k < p.1 := by
        intro p hp
        exact (List.pairwise_cons.mp hpw).1 p hp
      have ih := mergeGaps_cover z rest (k + 1) e
        (List.pairwise_cons.mp hpw).2
        (fun p hp => hle p (List.mem_cons_of_mem _ hp))
        (fun p hp => by have := hrest p hp; omega)
        (fun p hp => he p (List.mem_cons_of_mem _ hp))
      have hCimp : (∃ p ∈ rest, p.1 ≤ z ∧ z ≤ p.2) → k < z := by
        rintro ⟨p, hp, h1, _⟩
        have := hrest p hp
        omega
      simp only [mergeGaps, List.mem_append, List.mem_cons]
      constructor
      · rintro ⟨q, hq | hq, hz⟩
        · by_cases hlt : i < j
          · simp only [if_pos hlt, List.mem_singleton] at hq
            subst hq
            refine ⟨hz.1, by omega, ?_⟩
            rintro ⟨p, hp | hp, hpz⟩
            · subst hp
              omega
            · have := hrest p hp
              omega
          · simp [if_neg hlt] at hq
        · have := ih.mp ⟨q, hq, hz⟩
          refine ⟨by omega, this.2.1, ?_⟩
          rintro ⟨p, hp | hp, hpz⟩
          · subst hp
            omega
          · exact this.2.2 ⟨p, hp, hpz⟩
      · rintro ⟨hiz, hze, hnc⟩
        by_cases hCrest : ∃ p ∈ rest, p.1 ≤ z ∧ z ≤ p.2
        · exact absurd ⟨hCrest.choose, Or.inr hCrest.choose_spec.1, hCrest.choose_spec.2⟩ hnc
        · have hnjk : ¬ (j ≤ z ∧ z ≤ k) := fun h => hnc ⟨(j, k), Or.inl rfl, h⟩
          by_cases hzj : z < j
          · refine ⟨(i, j - 1), Or.inl ?_, by omega⟩
            have hlt : i < j := by omega
            simp [if_pos hlt]
          · refine ⟨?_, ?_⟩
            · exact (ih.mpr ⟨by omega, hze, hCrest⟩).choose
            · have h := (ih.mpr ⟨by omega, hze, hCrest⟩).choose_spec
              exact ⟨Or.inr h.1, h.2⟩

/-! ### List helpers -/

/-- `takeWhile` over an append whose front part satisfies the predicate. -/
theorem takeWhile_append_all {α : Type} (p : α → Bool) :
    ∀ (A B : List α), (∀ x ∈ A, p x = true) →
      (A ++ B).takeWhile p = A ++ B.takeWhile p
  | [], B, _ => rfl
  | x :: A, B, h => by
      have hx : p x = true := h x (List.mem_cons_self _ _)
      simp only [List.cons_append, List.takeWhile_cons, hx, if_true]
      rw [takeWhile_append_all p A B (fun y hy => h y (List.mem_cons_of_mem _ hy))]

/-- `dropWhile` over an append whose front part satisfies the predicate. -/
theorem dropWhile_append_all {α : Type} (p : α → Bool) :
    ∀ (A B : List α), (∀ x ∈ A, p x = true) →
      (A ++ B).dropWhile p = B.dropWhile p
  | [], B, _ => rfl
  | x :: A, B, h => by
      have hx : p x = true := h x (List.mem_cons_self _ _)
      simp only [List.cons_append, List.dropWhile_cons, hx, if_true]
      exact dropWhile_append_all p A B (fun y hy => h y (List.mem_cons_of_mem _ hy))

/-- `getLastD` of a mapped nonempty list. -/
theorem map_getLastD {α β : Type} (f : α → β) (c : β) :
    ∀ (M : List α) (h : M ≠ []), (M.map f).getLastD c = f (M.getLast h)
  | [], h => absurd rfl h
  | [x], _ => rfl
  | x :: y :: M, _ => by
      have := map_getLastD f c (y :: M) (List.cons_ne_nil _ _)
      simpa [List.getLastD, List.getLast] using this

/-- In a disjoint ordered interval list, every right end is bounded by the
last one. -/
theorem right_le_getLast :
    ∀ (M : List (Int × Int)) (h : M ≠ []),
      M.Pairwise (fun p q => p.2 < q.1) →
      (∀ p ∈ M, p.1 ≤ p.2) →
      ∀ p ∈ M, p.2 ≤ (M.getLast h).2
  | [], h, _, _ => absurd rfl h
  | [x], _, _, _ => by
      intro p hp
      simp only [List.mem_singleton] at hp
      subst hp
      rfl
  | x :: y :: M, _, hpw, hle => by
      intro p hp
      have ih := right_le_getLast (y :: M) (List.cons_ne_nil _ _)
        (List.pairwise_cons.mp hpw).2
        (fun q hq => hle q (List.mem_cons_of_mem _ hq))
      rcases List.mem_cons.mp hp with hp | hp
      · subst hp
        have h1 : p.2 < y.1 := (List.pairwise_cons.mp hpw).1 y (List.mem_cons_self _ _)
        have h2 : y.1 ≤ y.2 := hle y (List.mem_cons_of_mem _ (List.mem_cons_self _ _))
        have h3 := ih y (List.mem_cons_self _ _)
        simp only [List.getLast_cons (List.cons_ne_nil y M)]
        omega
      · have := ih p hp
        simpa [List.getLast_cons (List.cons_ne_nil y M)] using this

/-! ### The reserve operation on the zipped pair list -/

/-- Core lemma: given the decomposition of the interval list into the part
left of the request (`P`), the touched slice (`M`) and the part right of it
(`S`), replacing `M` by the single merged interval `(s, e)` preserves the
invariant, grows the covered set by exactly `[a, b]`, and the emitted gaps
are exactly the uncovered offsets of `[a, b]`. -/
theorem reserveCore (P M S : List (Int × Int)) (a b s e : Int)
    (hab : a ≤ b) (hsa : s ≤ a) (hbe : b ≤ e)
    (hpw : (P ++ (M ++ S)).Pairwise (fun p q => p.2 < q.1))
    (hle : ∀ p ∈ P ++ (M ++ S), p.1 ≤ p.2)
    (hPa : ∀ p ∈ P, p.2 < a) (hPs : ∀ p ∈ P, p.2 < s)
    (hMs : ∀ p ∈ M, s ≤ p.1) (hMe : ∀ p ∈ M, p.2 ≤ e)
    (hSb : ∀ q ∈ S, b < q.1) (hSe : ∀ q ∈ S, e < q.1)
    (hspan : ∀ z, (s ≤ z ∧ z ≤ e) ↔
      ((∃ p ∈ M, p.1 ≤ z ∧ z ≤ p.2) ∨ (a ≤ z ∧ z ≤ b))) :
    ((P ++ (s, e) :: S).Pairwise (fun p q => p.2 < q.1)) ∧
    (∀ p ∈ P ++ (s, e) :: S, p.1 ≤ p.2) ∧
    (∀ z, (∃ p ∈ P ++ (s, e) :: S, p.1 ≤ z ∧ z ≤ p.2) ↔
      ((∃ p ∈ P ++ (M ++ S), p.1 ≤ z ∧ z ≤ p.2) ∨ (a ≤ z ∧ z ≤ b))) ∧
    (∀ z, (∃ q ∈ mergeGaps s M e, q.1 ≤ z ∧ z ≤ q.2) ↔
      (a ≤ z ∧ z ≤ b ∧ ¬ ∃ p ∈ P ++ (M ++ S), p.1 ≤ z ∧ z ≤ p.2)) ∧
    (∀ q ∈ mergeGaps s M e, q.1 ≤ q.2) := by
  rw [List.pairwise_append] at hpw
  obtain ⟨hpwP, hpwMS, hcrossP⟩ := hpw
  rw [List.pairwise_append] at hpwMS
  obtain ⟨hpwM, hpwS, hcrossMS⟩ := hpwMS
  have hleP : ∀ p ∈ P, p.1 ≤ p.2 := fun p hp => hle p (by simp [hp])
  have hleM : ∀ p ∈ M, p.1 ≤ p.2 := fun p hp => hle p (by simp [hp])
  have hleS : ∀ p ∈ S, p.1 ≤ p.2 := fun p hp => hle p (by simp [hp])
  have hgap := fun z => mergeGaps_cover z M s e hpwM hleM hMs hMe
  have hgapB := mergeGaps_bounds M s e hpwM hleM hMs hMe
  refine ⟨?_, ?_, ?_, ?_, ?_⟩
  · rw [List.pairwise_append]
    refine ⟨hpwP, ?_, ?_⟩
    · rw [List.pairwise_cons]
      exact ⟨fun q hq => hSe q hq, hpwS⟩
    · intro p hp q hq
      rcases List.mem_cons.mp hq with hq | hq
      · subst hq
        exact hPs p hp
      · exact hcrossP p hp q (by simp [hq])
  · intro p hp
    rcases List.mem_append.mp hp with hp | hp
    · exact hleP p hp
    · rcases List.mem_cons.mp hp with hp | hp
      · subst hp
        simp only
        omega
      · exact hleS p hp
  · intro z
    constructor
    · rintro ⟨p, hp, hz⟩
      rcases List.mem_append.mp hp with hp | hp
      · exact Or.inl ⟨p, by simp [hp], hz⟩
      · rcases List.mem_cons.mp hp with hp | hp
        · subst hp
          rcases (hspan z).mp hz with h | h
          · obtain ⟨q, hq, hqz⟩ := h
            exact Or.inl ⟨q, by simp [hq], hqz⟩
          · exact Or.inr h
        · exact Or.inl ⟨p, by simp [hp], hz⟩
    · rintro (⟨p, hp, hz⟩ | hz)
      · rcases List.mem_append.mp hp with hp | hp
        · exact ⟨p, by simp [hp], hz⟩
        · rcases List.mem_append.mp hp with hp | hp
          · exact ⟨(s, e), by simp, (hspan z).mpr (Or.inl ⟨p, hp, hz⟩)⟩
          · exact ⟨p, by simp [hp], hz⟩
      · exact ⟨(s, e), by simp, (hspan z).mpr (Or.inr hz)⟩
  · intro z
    rw [hgap z]
    constructor
    · rintro ⟨hsz, hze, hnM⟩
      have hz : a ≤ z ∧ z ≤ b := by
        rcases (hspan z).mp ⟨hsz, hze⟩ with h | h
        · exact absurd h hnM
        · exact h
      refine ⟨hz.1, hz.2, ?_⟩
      rintro ⟨p, hp, hpz⟩
      rcases List.mem_append.mp hp with hp | hp
      · have := hPa p hp
        omega
      · rcases List.mem_append.mp hp with hp | hp
        · exact hnM ⟨p, hp, hpz⟩
        · have := hSb p hp
          omega
    · rintro ⟨haz, hzb, hnc⟩
      refine ⟨by omega, by omega, ?_⟩
      rintro ⟨p, hp, hpz⟩
      exact hnc ⟨p, by simp [hp], hpz⟩
  · intro q hq
    exact (hgapB q hq).2.1

/-- The first element surviving `dropWhile` falsifies the predicate. -/
theorem dropWhile_head_false {α : Type} (p : α → Bool) :
    ∀ (l : List α) (x : α) (xs : List α), l.dropWhile p = x :: xs → p x = false
  | [], x, xs, h => by simp at h
  | y :: l, x, xs, h => by
      by_cases hy : p y = true
      · rw [List.dropWhile_cons, if_pos hy] at h
        exact dropWhile_head_false p l x xs h
      · rw [List.dropWhile_cons, if_neg hy] at h
        injection h with h1 h2
        subst h1
        simpa using hy

/-- Full specification of one `reserve` step on the zipped pair list: the
invariant is preserved, coverage grows by exactly `[a, b]`, and the emitted
gaps cover exactly the previously missing offsets of `[a, b]`. -/
theorem reservePairs_spec (ps : List (Int × Int)) (a b : Int) (hab : a ≤ b)
    (hpw : ps.Pairwise (fun p q => p.2 < q.1))
    (hle : ∀ p ∈ ps, p.1 ≤ p.2) :
    ((reservePairs ps a b).2.Pairwise (fun p q => p.2 < q.1)) ∧
    (∀ p ∈ (reservePairs ps a b).2, p.1 ≤ p.2) ∧
    (∀ z, (∃ p ∈ (reservePairs ps a b).2, p.1 ≤ z ∧ z ≤ p.2) ↔
      ((∃ p ∈ ps, p.1 ≤ z ∧ z ≤ p.2) ∨ (a ≤ z ∧ z ≤ b))) ∧
    (∀ z, (∃ q ∈ (reservePairs ps a b).1, q.1 ≤ z ∧ z ≤ q.2) ↔
      (a ≤ z ∧ z ≤ b ∧ ¬ ∃ p ∈ ps, p.1 ≤ z ∧ z ≤ p.2)) ∧
    (∀ q ∈ (reservePairs ps a b).1, q.1 ≤ q.2) := by
  obtain ⟨P, hP⟩ : ∃ X, X = ps.takeWhile (fun p => decide (p.2 < a)) := ⟨_, rfl⟩
  obtain ⟨D, hD⟩ : ∃ X, X = ps.dropWhile (fun p => decide (p.2 < a)) := ⟨_, rfl⟩
  obtain ⟨M, hM⟩ : ∃ X, X = D.takeWhile (fun p => decide (p.1 ≤ b)) := ⟨_, rfl⟩
  obtain ⟨S, hS⟩ : ∃ X, X = D.dropWhile (fun p => decide (p.1 ≤ b)) := ⟨_, rfl⟩
  obtain ⟨s, hs⟩ : ∃ X, X = min a ((M.map Prod.fst).headD a) := ⟨_, rfl⟩
  obtain ⟨e, he⟩ : ∃ X, X = max b ((M.map Prod.snd).getLastD b) := ⟨_, rfl⟩
  have hrp : reservePairs ps a b = (mergeGaps s M e, P ++ (s, e) :: S) := by
    rw [hs, he, hM, hS, hP, hD]
    rfl
  have hMSD : M ++ S = D := by
    rw [hM, hS]
    exact List.takeWhile_append_dropWhile _ _
  have hPD : P ++ D = ps := by
    rw [hP, hD]
    exact List.takeWhile_append_dropWhile _ _
  have hps : P ++ (M ++ S) = ps := by rw [hMSD]; exact hPD
  have hpw' : (P ++ (M ++ S)).Pairwise (fun p q => p.2 < q.1) := by
    rw [hps]; exact hpw
  have hle' : ∀ p ∈ P ++ (M ++ S), p.1 ≤ p.2 := by rw [hps]; exact hle
  have hPa : ∀ p ∈ P, p.2 < a := by
    rw [hP]
    intro p hp
    simpa using List.mem_takeWhile_imp hp
  have hMb : ∀ p ∈ M, p.1 ≤ b := by
    rw [hM]
    intro p hp
    simpa using List.mem_takeWhile_imp hp
  have hDmem : ∀ p ∈ D, p ∈ ps := by
    rw [hD]
    exact fun p hp => (List.dropWhile_sublist _).subset hp
  have hpwD : D.Pairwise (fun p q => p.2 < q.1) := by
    rw [hD]
    exact List.Pairwise.sublist (List.dropWhile_sublist _) hpw
  have hMmem : ∀ p ∈ M, p ∈ D := by
    rw [hM]
    exact fun p hp => (List.takeWhile_sublist _).subset hp
  have hpwM : M.Pairwise (fun p q => p.2 < q.1) := by
    rw [hM]
    exact List.Pairwise.sublist (List.takeWhile_sublist _) hpwD
  have hleM : ∀ p ∈ M, p.1 ≤ p.2 := fun p hp => hle p (hDmem p (hMmem p hp))
  have hDa : ∀ p ∈ D, a ≤ p.2 := by
    rcases hDc : D with _ | ⟨d, D'⟩
    · simp
    · subst hDc
      have hd : a ≤ d.2 := by
        have := dropWhile_head_false (fun p => decide (p.2 < a)) ps d D' hD.symm
        simpa using this
      intro p hp
      rcases List.mem_cons.mp hp with hp | hp
      · subst hp; exact hd
      · have h1 : d.2 < p.1 := (List.pairwise_cons.mp hpwD).1 p hp
        have h2 : p.1 ≤ p.2 := hle p (hDmem p (List.mem_cons_of_mem _ hp))
        omega
  have hMa : ∀ p ∈ M, a ≤ p.2 := fun p hp => hDa p (hMmem p hp)
  have hSb : ∀ q ∈ S, b < q.1 := by
    have hpwS : S.Pairwise (fun p q => p.2 < q.1) := by
      rw [hS]
      exact List.Pairwise.sublist (List.dropWhile_sublist _) hpwD
    have hSmem : ∀ q ∈ S, q ∈ ps := by
      rw [hS]
      exact fun q hq => hDmem q ((List.dropWhile_sublist _).subset hq)
    rcases hSc : S with _ | ⟨q0, S'⟩
    · simp
    · subst hSc
      have hq0 : b < q0.1 := by
        have := dropWhile_head_false (fun p => decide (p.1 ≤ b)) D q0 S' hS.symm
        simpa using this
      intro q hq
      rcases List.mem_cons.mp hq with hq | hq
      · subst hq; exact hq0
      · have h1 : q0.2 < q.1 := (List.pairwise_cons.mp hpwS).1 q hq
        have h2 : q0.1 ≤ q0.2 := hle q0 (hSmem q0 (List.mem_cons_self _ _))
        omega
  rw [List.pairwise_append] at hpw'
  obtain ⟨-, hpwMS, hcrossP⟩ := hpw'
  rw [List.pairwise_append] at hpwMS
  obtain ⟨-, -, hcrossMS⟩ := hpwMS
  have hbig : (s ≤ a) ∧ (b ≤ e) ∧ (∀ p ∈ M, s ≤ p.1) ∧ (∀ p ∈ M, p.2 ≤ e) ∧
      (∀ p ∈ P, p.2 < s) ∧ (∀ q ∈ S, e < q.1) ∧
      (∀ z, (s ≤ z ∧ z ≤ e) ↔
        ((∃ p ∈ M, p.1 ≤ z ∧ z ≤ p.2) ∨ (a ≤ z ∧ z ≤ b))) := by
    rcases hMc : M with _ | ⟨m, M'⟩
    · subst hMc
      have hsa : s = a := by rw [hs]; simp
      have heb : e = b := by rw [he]; simp
      subst hsa
      subst heb
      refine ⟨le_refl _, le_refl _, by simp, by simp, hPa, hSb, ?_⟩
      intro z
      simp
    · subst hMc
      have hsm : s = min a m.1 := by rw [hs]; simp
      obtain ⟨L, hL⟩ : ∃ X, X = (m :: M').getLast (List.cons_ne_nil m M') := ⟨_, rfl⟩
      have heL : e = max b L.2 := by
        rw [he, map_getLastD Prod.snd b (m :: M') (List.cons_ne_nil m M'), ← hL]
      have hLmem : L ∈ m :: M' := by rw [hL]; exact List.getLast_mem _
      have hLb : L.1 ≤ b := hMb L hLmem
      have hLtop : ∀ p ∈ m :: M', p.2 ≤ L.2 := by
        intro p hp
        rw [hL]
        exact right_le_getLast (m :: M') (List.cons_ne_nil m M') hpwM hleM p hp
      have hm1 : ∀ p ∈ m :: M', m.1 ≤ p.1 := by
        intro p hp
        rcases List.mem_cons.mp hp with hp | hp
        · subst hp; exact le_refl _
        · have h1 : m.2 < p.1 := (List.pairwise_cons.mp hpwM).1 p hp
          have h2 : m.1 ≤ m.2 := hleM m (List.mem_cons_self _ _)
          omega
      have hma : a ≤ m.2 := hMa m (List.mem_cons_self _ _)
      have hmb : m.1 ≤ b := hMb m (List.mem_cons_self _ _)
      refine ⟨by rw [hsm]; omega, by rw [heL]; omega, ?_, ?_, ?_, ?_, ?_⟩
      · intro p hp
        have := hm1 p hp
        rw [hsm]
        omega
      · intro p hp
        have := hLtop p hp
        rw [heL]
        omega
      · intro p hp
        have h1 := hPa p hp
        have h2 : p.2 < m.1 := hcrossP p hp m (by simp)
        rw [hsm]
        omega
      · intro q hq
        have h1 := hSb q hq
        have h2 : L.2 < q.1 := hcrossMS L hLmem q hq
        rw [heL]
        omega
      · intro z
        rw [hsm, heL]
        constructor
        · rintro ⟨h1, h2⟩
          by_cases hza : z < a
          · exact Or.inl ⟨m, List.mem_cons_self _ _, by omega, by omega⟩
          · by_cases hzb : b < z
            · exact Or.inl ⟨L, hLmem, by omega, by omega⟩
            · exact Or.inr ⟨by omega, by omega⟩
        · rintro (⟨p, hp, hp1, hp2⟩ | ⟨h1, h2⟩)
          · have ha := hm1 p hp
            have hb := hLtop p hp
            omega
          · omega
  obtain ⟨hsa, hbe, hMs, hMe, hPs, hSe, hspan⟩ := hbig
  have core := reserveCore P M S a b s e hab hsa hbe
    (by rw [hps]; exact hpw) (by rw [hps]; exact hle)
    hPa hPs hMs hMe hSb hSe hspan
  rw [hrp, ← hps]
  exact core

/-- Bridge: under the invariant, the slice bookkeeping of `_download` on the
two parallel endpoint lists computes exactly the pair-list reserve
operation — same gaps, and the new endpoint lists are the projections of
the new pair list. -/
theorem downloadPure_pairs (t : Tracker) (a b : Int) (hinv : Inv t) (hab : a ≤ b) :
    (downloadPure t a b).1 = (reservePairs t.pairs a b).1 ∧
    (downloadPure t a b).2.left = ((reservePairs t.pairs a b).2).map Prod.fst ∧
    (downloadPure t a b).2.right = ((reservePairs t.pairs a b).2).map Prod.snd := by
  obtain ⟨hlen, hpw, hle⟩ := hinv
  have hleft : t.left = t.pairs.map Prod.fst := (List.map_fst_zip _ _ hlen.le).symm
  have hright : t.right = t.pairs.map Prod.snd := (List.map_snd_zip _ _ hlen.ge).symm
  obtain ⟨P, hP⟩ : ∃ X, X = t.pairs.takeWhile (fun p => decide (p.2 < a)) := ⟨_, rfl⟩
  obtain ⟨D, hD⟩ : ∃ X, X = t.pairs.dropWhile (fun p => decide (p.2 < a)) := ⟨_, rfl⟩
  obtain ⟨M, hM⟩ : ∃ X, X = D.takeWhile (fun p => decide (p.1 ≤ b)) := ⟨_, rfl⟩
  obtain ⟨S, hS⟩ : ∃ X, X = D.dropWhile (fun p => decide (p.1 ≤ b)) := ⟨_, rfl⟩
  have hPD : P ++ D = t.pairs := by
    rw [hP, hD]
    exact List.takeWhile_append_dropWhile _ _
  have hMSD : M ++ S = D := by
    rw [hM, hS]
    exact List.takeWhile_append_dropWhile _ _
  have hl : bisectLeft t.right a = P.length := by
    rw [hP]
    unfold bisectLeft
    rw [hright, List.takeWhile_map]
    simp only [List.length_map]
    rfl
  have hPw2 : ∀ x ∈ P, (fun p : Int × Int => decide (p.1 ≤ b)) x = true := by
    intro x hx
    have h1 : x.2 < a := by
      rw [hP] at hx
      simpa using List.mem_takeWhile_imp hx
    have h2 : x.1 ≤ x.2 := by
      refine hle x ?_
      rw [hP] at hx
      exact (List.takeWhile_sublist _).subset hx
    simp only [decide_eq_true_eq]
    omega
  have hsplit : t.pairs.takeWhile (fun p => decide (p.1 ≤ b)) = P ++ M := by
    rw [← hPD, takeWhile_append_all _ P D hPw2, ← hM]
  have hr : bisectRight t.left b = P.length + M.length := by
    unfold bisectRight
    rw [hleft, List.takeWhile_map]
    simp only [List.length_map]
    have : t.pairs.takeWhile ((fun y => decide (y ≤ b)) ∘ Prod.fst) = P ++ M := hsplit
    rw [this, List.length_append]
  have htakeP : t.pairs.take P.length = P := by
    rw [← hPD]
    exact List.take_left _ _
  have hdropP : t.pairs.drop P.length = D := by
    rw [← hPD]
    exact List.drop_left _ _
  have htakeM : D.take M.length = M := by
    rw [← hMSD]
    exact List.take_left _ _
  have hdropM : D.drop M.length = S := by
    rw [← hMSD]
    exact List.drop_left _ _
  have hdropR : t.pairs.drop (P.length + M.length) = S := by
    rw [← List.drop_drop, hdropP, hdropM]
  have hslice : (t.pairs.drop (bisectLeft t.right a)).take
      (bisectRight t.left b - bisectLeft t.right a) = M := by
    rw [hl, hr]
    have h : P.length + M.length - P.length = M.length := by omega
    rw [h, hdropP, htakeM]
  have hlsl : (t.left.drop (bisectLeft t.right a)).take
      (bisectRight t.left b - bisectLeft t.right a) = M.map Prod.fst := by
    rw [hl, hr, Nat.add_sub_cancel_left, hleft, ← List.map_drop, ← List.map_take,
      hdropP, htakeM]
  have hrsl : (t.right.drop (bisectLeft t.right a)).take
      (bisectRight t.left b - bisectLeft t.right a) = M.map Prod.snd := by
    rw [hl, hr, Nat.add_sub_cancel_left, hright, ← List.map_drop, ← List.map_take,
      hdropP, htakeM]
  have hzip : (M.map Prod.fst).zip (M.map Prod.snd) = M := by
    simpa [List.unzip_eq_map] using List.zip_unzip M
  have hmax : max (bisectLeft t.right a) (bisectRight t.left b) = P.length + M.length := by
    rw [hl, hr]
    omega
  have hltake : t.left.take (bisectLeft t.right a) = P.map Prod.fst := by
    rw [hl, hleft, ← List.map_take, htakeP]
  have hldrop : t.left.drop (max (bisectLeft t.right a) (bisectRight t.left b)) =
      S.map Prod.fst := by
    rw [hmax, hleft, ← List.map_drop, hdropR]
  have hrtake : t.right.take (bisectLeft t.right a) = P.map Prod.snd := by
    rw [hl, hright, ← List.map_take, htakeP]
  have hrdrop : t.right.drop (max (bisectLeft t.right a) (bisectRight t.left b)) =
      S.map Prod.snd := by
    rw [hmax, hright, ← List.map_drop, hdropR]
  refine ⟨?_, ?_, ?_⟩
  · show (downloadPure t a b).1 = (reservePairs t.pairs a b).1
    simp only [downloadPure, reservePairs]
    rw [← hD, ← hM, hlsl, hrsl, hzip]
  · show (downloadPure t a b).2.left = _
    simp only [downloadPure, reservePairs]
    rw [← hD, ← hM, ← hS, ← hP, hlsl, hltake, hldrop]
    simp [List.map_append]
  · show (downloadPure t a b).2.right = _
    simp only [downloadPure, reservePairs]
    rw [← hD, ← hM, ← hS, ← hP, hrsl, hrtake, hrdrop]
    simp [List.map_append]

/-- Zipping the two projections of a pair list recovers it. -/
theorem zip_proj {α β : Type} (X : List (α × β)) :
    (X.map Prod.fst).zip (X.map Prod.snd) = X := by
  simpa [List.unzip_eq_map] using List.zip_unzip X

/-- One `_download` bookkeeping step, on the tracker: the invariant is
preserved, the covered set grows by exactly `[a, b]`, the emitted gaps are
exactly the previously uncovered offsets of `[a, b]`, and every gap is a
nonempty range. -/
theorem downloadPure_spec (t : Tracker) (a b : Int) (hinv : Inv t) (hab : a ≤ b) :
    Inv (downloadPure t a b).2 ∧
    (∀ z, covers (downloadPure t a b).2 z ↔ (covers t z ∨ (a ≤ z ∧ z ≤ b))) ∧
    (∀ z, (∃ q ∈ (downloadPure t a b).1, q.1 ≤ z ∧ z ≤ q.2) ↔
      (a ≤ z ∧ z ≤ b ∧ ¬ covers t z)) ∧
    (∀ q ∈ (downloadPure t a b).1, q.1 ≤ q.2) := by
  have hb := downloadPure_pairs t a b hinv hab
  have hsp := reservePairs_spec t.pairs a b hab hinv.2.1 hinv.2.2
  have hpairs : (downloadPure t a b).2.pairs = (reservePairs t.pairs a b).2 := by
    unfold Tracker.pairs
    rw [hb.2.1, hb.2.2, zip_proj]
    rfl
  refine ⟨⟨?_, ?_, ?_⟩, ?_, ?_, ?_⟩
  · rw [hb.2.1, hb.2.2]
    simp [List.length_map]
  · rw [hpairs]
    exact hsp.1
  · rw [hpairs]
    exact hsp.2.1
  · intro z
    unfold covers
    rw [hpairs]
    exact hsp.2.2.1 z
  · intro z
    rw [hb.1]
    exact hsp.2.2.2.1 z
  · rw [hb.1]
    exact hsp.2.2.2.2

/-- The empty tracker satisfies the invariant. -/
theorem inv_empty : Inv ⟨[], []⟩ := by
  decide

/-- Folding reserve steps: the invariant is maintained and the final covered
set is the initial one plus the union of all well-formed requested ranges. -/
theorem runReserves_spec :
    ∀ (reqs : List (Int × Int)) (t : Tracker), Inv t →
      (∀ p ∈ reqs, p.1 ≤ p.2) →
      Inv (runReserves reqs t) ∧
      (∀ z, covers (runReserves reqs t) z ↔
        (covers t z ∨ ∃ p ∈ reqs, p.1 ≤ z ∧ z ≤ p.2))
  | [], t, hinv, _ => by
      refine ⟨hinv, ?_⟩
      intro z
      simp [runReserves]
  | (a, b) :: reqs, t, hinv, hab => by
      have hab0 : a ≤ b := hab (a, b) (List.mem_cons_self _ _)
      have hstep := downloadPure_spec t a b hinv hab0
      have ih := runReserves_spec reqs (downloadPure t a b).2 hstep.1
        (fun p hp => hab p (List.mem_cons_of_mem _ hp))
      have hrun : runReserves ((a, b) :: reqs) t = runReserves reqs (downloadPure t a b).2 := by
        simp [runReserves]
      rw [hrun]
      refine ⟨ih.1, ?_⟩
      intro z
      rw [(ih.2 z), (hstep.2.1 z)]
      constructor
      · rintro ((h | h) | ⟨p, hp, hz⟩)
        · exact Or.inl h
        · exact Or.inr ⟨(a, b), List.mem_cons_self _ _, h⟩
        · exact Or.inr ⟨p, List.mem_cons_of_mem _ hp, hz⟩
      · rintro (h | ⟨p, hp, hz⟩)
        · exact Or.inl (Or.inl h)
        · rcases List.mem_cons.mp hp with hp | hp
          · subst hp
            exact Or.inl (Or.inr hz)
          · exact Or.inr ⟨p, hp, hz⟩

/-- A reserve request already covered by one recorded interval (the shape
the tracker has right after reserving that same range) emits no gap and
leaves the pair list unchanged. -/
theorem reserve_covered_id (P S : List (Int × Int)) (a b s e : Int) (hab : a ≤ b)
    (hPa : ∀ p ∈ P, p.2 < a) (hsa : s ≤ a) (hbe : b ≤ e)
    (hSb : ∀ q ∈ S, b < q.1) :
    reservePairs (P ++ (s, e) :: S) a b = ([], P ++ (s, e) :: S) := by
  have hw1P : ∀ x ∈ P, (fun p : Int × Int => decide (p.2 < a)) x = true := by
    intro x hx
    simpa using hPa x hx
  have h1 : (P ++ (s, e) :: S).takeWhile (fun p => decide (p.2 < a)) = P := by
    rw [takeWhile_append_all _ P _ hw1P]
    have h : ((s, e) :: S).takeWhile (fun p : Int × Int => decide (p.2 < a)) = [] := by
      rw [List.takeWhile_cons]
      simp only [decide_eq_true_eq]
      rw [if_neg (by omega)]
    rw [h, List.append_nil]
  have h2 : (P ++ (s, e) :: S).dropWhile (fun p => decide (p.2 < a)) = (s, e) :: S := by
    rw [dropWhile_append_all _ P _ hw1P, List.dropWhile_cons]
    simp only [decide_eq_true_eq]
    rw [if_neg (by omega)]
  have hTS : S.takeWhile (fun p : Int × Int => decide (p.1 ≤ b)) = [] := by
    cases S with
    | nil => rfl
    | cons q S' =>
        have := hSb q (List.mem_cons_self _ _)
        rw [List.takeWhile_cons]
        simp only [decide_eq_true_eq]
        rw [if_neg (by omega)]
  have hDS : S.dropWhile (fun p : Int × Int => decide (p.1 ≤ b)) = S := by
    cases S with
    | nil => rfl
    | cons q S' =>
        have := hSb q (List.mem_cons_self _ _)
        rw [List.dropWhile_cons]
        simp only [decide_eq_true_eq]
        rw [if_neg (by omega)]
  have h3 : ((s, e) :: S).takeWhile (fun p : Int × Int => decide (p.1 ≤ b)) = [(s, e)] := by
    rw [List.takeWhile_cons]
    simp only [decide_eq_true_eq]
    rw [if_pos (by omega), hTS]
  have h4 : ((s, e) :: S).dropWhile (fun p : Int × Int => decide (p.1 ≤ b)) = S := by
    rw [List.dropWhile_cons]
    simp only [decide_eq_true_eq]
    rw [if_pos (by omega), hDS]
  simp only [reservePairs]
  rw [h1, h2, h3, h4]
  have hh : (([(s, e)].map Prod.fst).headD a) = s := rfl
  have hg : (([(s, e)].map Prod.snd).getLastD b) = e := rfl
  rw [hh, hg, min_eq_right hsa, max_eq_right hbe]
  simp only [mergeGaps, lt_irrefl, if_false, List.nil_append]
  rw [if_neg (by omega)]

/-- The tracker after any reserve step decomposes as everything strictly
below the request, one merged interval enclosing `[a, b]`, and everything
strictly above it. -/
theorem reservePairs_shape (ps : List (Int × Int)) (a b : Int)
    (hpw : ps.Pairwise (fun p q => p.2 < q.1))
    (hle : ∀ p ∈ ps, p.1 ≤ p.2) :
    ∃ P S s e, (reservePairs ps a b).2 = P ++ (s, e) :: S ∧
      (∀ p ∈ P, p.2 < a) ∧ s ≤ a ∧ b ≤ e ∧ (∀ q ∈ S, b < q.1) := by
  obtain ⟨P, hP⟩ : ∃ X, X = ps.takeWhile (fun p => decide (p.2 < a)) := ⟨_, rfl⟩
  obtain ⟨D, hD⟩ : ∃ X, X = ps.dropWhile (fun p => decide (p.2 < a)) := ⟨_, rfl⟩
  obtain ⟨M, hM⟩ : ∃ X, X = D.takeWhile (fun p => decide (p.1 ≤ b)) := ⟨_, rfl⟩
  obtain ⟨S, hS⟩ : ∃ X, X = D.dropWhile (fun p => decide (p.1 ≤ b)) := ⟨_, rfl⟩
  obtain ⟨s, hs⟩ : ∃ X, X = min a ((M.map Prod.fst).headD a) := ⟨_, rfl⟩
  obtain ⟨e, he⟩ : ∃ X, X = max b ((M.map Prod.snd).getLastD b) := ⟨_, rfl⟩
  have hrp : (reservePairs ps a b).2 = P ++ (s, e) :: S := by
    rw [hs, he, hM, hS, hP, hD]
    rfl
  have hpwD : D.Pairwise (fun p q => p.2 < q.1) := by
    rw [hD]
    exact List.Pairwise.sublist (List.dropWhile_sublist _) hpw
  have hDmem : ∀ p ∈ D, p ∈ ps := by
    rw [hD]
    exact fun p hp => (List.dropWhile_sublist _).subset hp
  refine ⟨P, S, s, e, hrp, ?_, by rw [hs]; exact min_le_left _ _,
    by rw [he]; exact le_max_left _ _, ?_⟩
  · rw [hP]
    intro p hp
    simpa using List.mem_takeWhile_imp hp
  · have hpwS : S.Pairwise (fun p q => p.2 < q.1) := by
      rw [hS]
      exact List.Pairwise.sublist (List.dropWhile_sublist _) hpwD
    have hSmem : ∀ q ∈ S, q ∈ ps := by
      rw [hS]
      exact fun q hq => hDmem q ((List.dropWhile_sublist _).subset hq)
    rcases hSc : S with _ | ⟨q0, S'⟩
    · simp
    · subst hSc
      have hq0 : b < q0.1 := by
        have := dropWhile_head_false (fun p => decide (p.1 ≤ b)) D q0 S' hS.symm
        simpa using this
      intro q hq
      rcases List.mem_cons.mp hq with hq | hq
      · subst hq
        exact hq0
      · have hqa : q0.2 < q.1 := (List.pairwise_cons.mp hpwS).1 q hq
        have hqb : q0.1 ≤ q0.2 := hle q0 (hSmem q0 (List.mem_cons_self _ _))
        omega

/-! ### State-level helpers -/

/-- With an always-successful transport, every gap is fetched. -/
theorem fetchIssued_true :
    ∀ g : List (Int × Int), fetchIssued (fun _ _ => true) g = (g, true)
  | [] => rfl
  | g :: rest => by
      simp [fetchIssued, fetchIssued_true rest]

/-- `_download` under an always-successful transport: the tracker is updated,
the gaps are appended to the fetch log, and the cursor is restored. -/
theorem downloadR_true (a b : Int) (s : St) :
    downloadR (fun _ _ => true) a b s =
      ({ s with tr := (downloadPure s.tr a b).2,
                fetched := s.fetched ++ (downloadPure s.tr a b).1 }, true) := by
  simp [downloadR, downloadBody, fetchIssued_true]

/-- A download on an empty tracker yields the single gap `[a, b]` and records
it. -/
theorem downloadPure_empty (a b : Int) (hab : a ≤ b) :
    downloadPure ⟨[], []⟩ a b = ([(a, b)], ⟨[a], [b]⟩) := by
  simp [downloadPure, bisectLeft, bisectRight, mergeGaps, if_pos hab]

/-- A download of `[x, L]` on a tracker holding the single interval `[c, L]`
with `x < c ≤ L` yields the single gap `[x, c-1]` and records `[x, L]`. -/
theorem downloadPure_single (c L x : Int) (hx : x < c) (hc : c ≤ L) :
    downloadPure ⟨[c], [L]⟩ x L = ([(x, c - 1)], ⟨[x], [L]⟩) := by
  have h1 : ¬ (L < x) := by omega
  have h2 : (c : Int) ≤ L := hc
  simp [downloadPure, bisectLeft, bisectRight, mergeGaps, h1, h2,
    min_eq_left hx.le, if_pos hx, show ¬ (L + 1 ≤ L) by omega]

/-- An object of length at most one byte has no probe start at all. -/
theorem probeStarts_nil (len chunk : Int) (h : len ≤ 1) :
    probeStarts len chunk = [] := by
  unfold probeStarts
  have h0 : (len - 1).toNat = 0 := by omega
  rw [h0]
  have h1 : (0 + chunk.toNat - 1) / chunk.toNat = 0 := by
    rcases Nat.eq_zero_or_pos chunk.toNat with hz | hp
    · simp [hz]
    · exact Nat.div_eq_of_lt (by omega)
  rw [h1]
  rfl

/-- The cursor after `_download` equals the cursor before it, on success and
on transport failure alike (the `finally` of `_stay`). -/
theorem downloadR_pos (net : Int → Int → Bool) (a b : Int) (s : St) :
    ((downloadR net a b s).1).pos = s.pos := by
  simp [downloadR]

/-- The probing loop never moves the caller-visible cursor, whatever the
transport does, however the parse attempts reposition the stream, and
whether the loop breaks, fails or exhausts. -/
theorem checkZipLoop_pos (net : Int → Int → Bool) (oracle : Tracker → Bool)
    (pmove : Tracker → Int → Int) :
    ∀ (xs : List Int) (s : St),
      ((checkZipLoop net oracle pmove xs s).1).pos = s.pos
  | [], s => rfl
  | x :: xs, s => by
      have hdl := downloadR_pos net x (s.length - 1) s
      simp only [checkZipLoop]
      rcases hB : (downloadR net x (s.length - 1) s).2 with _ | _
      · simp only [hB, Bool.false_eq_true, if_false]
        exact hdl
      · simp only [hB, if_true]
        rcases hO : oracle ((downloadR net x (s.length - 1) s).1).tr with _ | _
        · simp only [hO, Bool.false_eq_true, if_false]
          rw [checkZipLoop_pos net oracle pmove xs _]
          exact hdl
        · simp only [hO, if_true]
          exact hdl

/-- The probing loop with an always-failing parser and always-successful
transport: starting from a single recorded interval `[c, length-1]` and
walking the strictly descending, not-yet-covered starts `xs`, it exhausts
the list (no break), ending with the single interval from the last start to
the end. -/
theorem checkZipLoop_false (pmove : Tracker → Int → Int) :
    ∀ (xs : List Int) (s : St) (c : Int),
      s.tr = ⟨[c], [s.length - 1]⟩ →
      (∀ x ∈ xs, 0 ≤ x ∧ x < c) →
      xs.Pairwise (fun x y => y < x) →
      c ≤ s.length - 1 →
      ((checkZipLoop (fun _ _ => true) (fun _ => false) pmove xs s).1).tr =
        ⟨[xs.getLastD c], [s.length - 1]⟩ ∧
      ((checkZipLoop (fun _ _ => true) (fun _ => false) pmove xs s).1).length =
        s.length ∧
      (checkZipLoop (fun _ _ => true) (fun _ => false) pmove xs s).2 = true
  | [], s, c, htr, _, _, _ => ⟨htr, rfl, rfl⟩
  | x :: xs, s, c, htr, hmem, hpw, hcL => by
      have hx := hmem x (List.mem_cons_self _ _)
      have hdp : downloadPure s.tr x (s.length - 1) =
          ([(x, c - 1)], ⟨[x], [s.length - 1]⟩) := by
        rw [htr]
        exact downloadPure_single c (s.length - 1) x hx.2 hcL
      have hdr := downloadR_true x (s.length - 1) s
      simp only [checkZipLoop, hdr, Bool.false_eq_true, if_false, if_true]
      have ih := checkZipLoop_false pmove xs
        ({ s with tr := (downloadPure s.tr x (s.length - 1)).2,
                  fetched := s.fetched ++ (downloadPure s.tr x (s.length - 1)).1,
                  attempts := s.attempts + 1 }) x
        (by simp [hdp])
        (by
          intro y hy
          have h1 := (List.pairwise_cons.mp hpw).1 y hy
          have h2 := hmem y (List.mem_cons_of_mem _ hy)
          exact ⟨h2.1, h1⟩)
        (List.pairwise_cons.mp hpw).2
        (by simp; omega)
      simp only [List.getLastD_cons]
      exact ⟨ih.1, ih.2.1, ih.2.2⟩

/-- `getLastD` of a reversed list is its `headD`. -/
theorem getLastD_reverse {α : Type} (l : List α) (d : α) :
    l.reverse.getLastD d = l.headD d := by
  rw [List.getLastD_eq_getLast?, List.getLast?_reverse, List.headD_eq_head?]

/-- The probe starts of an object of length at least 2: a nonempty, strictly
descending list of offsets in `[0, len-2]` ending at offset `0`. -/
theorem probeStarts_facts (len chunk : Int) (hchunk : 1 ≤ chunk) (hlen : 2 ≤ len) :
    probeStarts len chunk ≠ [] ∧
    (probeStarts len chunk).Pairwise (fun x y => y < x) ∧
    (∀ x ∈ probeStarts len chunk, 0 ≤ x ∧ x ≤ len - 2) ∧
    (probeStarts len chunk).getLastD 0 = 0 := by
  obtain ⟨n, hn⟩ : ∃ X, X = ((len - 1).toNat + chunk.toNat - 1) / chunk.toNat := ⟨_, rfl⟩
  have hps : probeStarts len chunk =
      ((List.range n).map (fun k : Nat => (k : Int) * chunk)).reverse := by
    rw [hn]
    rfl
  have hcpos : 0 < chunk.toNat := by omega
  have hmpos : 1 ≤ (len - 1).toNat := by omega
  have hn1 : 1 ≤ n := by
    rw [hn]
    exact (Nat.one_le_div_iff hcpos).mpr (by omega)
  have hnpred : n = ((len - 1).toNat - 1) / chunk.toNat + 1 := by
    rw [hn]
    have harith : (len - 1).toNat + chunk.toNat - 1 =
        ((len - 1).toNat - 1) + chunk.toNat := by omega
    rw [harith, Nat.add_div_right _ hcpos]
  refine ⟨?_, ?_, ?_, ?_⟩
  · rw [hps]
    intro hcon
    rw [List.reverse_eq_nil_iff, List.map_eq_nil_iff, List.range_eq_nil] at hcon
    omega
  · rw [hps, List.pairwise_reverse, List.pairwise_map]
    refine List.Pairwise.imp ?_ (List.pairwise_lt_range n)
    intro i j hij
    exact mul_lt_mul_of_pos_right (by exact_mod_cast hij) (by omega)
  · intro x hx
    rw [hps, List.mem_reverse] at hx
    obtain ⟨k, hk, rfl⟩ := List.mem_map.mp hx
    have hkn := List.mem_range.mp hk
    constructor
    · positivity
    · have hk1 : k ≤ n - 1 := by omega
      have hkc : k * chunk.toNat ≤ (len - 1).toNat - 1 := by
        calc k * chunk.toNat ≤ (n - 1) * chunk.toNat := Nat.mul_le_mul_right _ hk1
          _ = ((len - 1).toNat - 1) / chunk.toNat * chunk.toNat := by
              rw [hnpred, Nat.add_sub_cancel]
          _ ≤ (len - 1).toNat - 1 := Nat.div_mul_le_self _ _
      have hcast := (Int.ofNat_le).mpr hkc
      push_cast at hcast
      rw [Int.toNat_of_nonneg (by omega : (0 : Int) ≤ chunk)] at hcast
      have hsub : (((len - 1).toNat - 1 : Nat) : Int) = len - 2 := by omega
      rw [hsub] at hcast
      exact hcast
  · rw [hps, getLastD_reverse]
    obtain ⟨n', rfl⟩ : ∃ n', n = n' + 1 := ⟨n - 1, by omega⟩
    rw [List.range_succ_eq_map]
    simp

/-- The probing loop with always-failing parser, from the freshly sized
object state: the loop exhausts all starts without breaking and ends with
the whole object `[0, L-1]` recorded as one interval. -/
theorem checkZipLoop_false_from_empty (pmove : Tracker → Int → Int) (x : Int)
    (rest : List Int) (s : St) (htr : s.tr = ⟨[], []⟩)
    (hpw : (x :: rest).Pairwise (fun a y => y < a))
    (hbounds : ∀ y ∈ x :: rest, 0 ≤ y ∧ y ≤ s.length - 2) :
    ((checkZipLoop (fun _ _ => true) (fun _ => false) pmove (x :: rest) s).1).tr =
      ⟨[(x :: rest).getLastD 0], [s.length - 1]⟩ ∧
    (checkZipLoop (fun _ _ => true) (fun _ => false) pmove (x :: rest) s).2 = true := by
  have hx := hbounds x (List.mem_cons_self _ _)
  have hdp : downloadPure s.tr x (s.length - 1) =
      ([(x, s.length - 1)], ⟨[x], [s.length - 1]⟩) := by
    rw [htr]
    exact downloadPure_empty x (s.length - 1) (by omega)
  simp only [checkZipLoop, downloadR_true, Bool.false_eq_true, if_false, if_true]
  have hloop := checkZipLoop_false pmove rest
    ({ s with tr := (downloadPure s.tr x (s.length - 1)).2,
              fetched := s.fetched ++ (downloadPure s.tr x (s.length - 1)).1,
              attempts := s.attempts + 1 }) x
    (by simp [hdp])
    (fun y hy => ⟨(hbounds y (List.mem_cons_of_mem _ hy)).1,
      (List.pairwise_cons.mp hpw).1 y hy⟩)
    (List.pairwise_cons.mp hpw).2
    (by simp; omega)
  rw [List.getLastD_cons]
  exact ⟨hloop.1, hloop.2.2⟩

theorem checkZip_false (pmove : Tracker → Int → Int) (chunk L : Int)
    (hchunk : 1 ≤ chunk) (hL : 2 ≤ L) :
    ((checkZip (fun _ _ => true) (fun _ => false) pmove
        ({ initSt chunk with length := L })).1).tr = ⟨[0], [L - 1]⟩ ∧
    (checkZip (fun _ _ => true) (fun _ => false) pmove
        ({ initSt chunk with length := L })).2 = true := by
  obtain ⟨hne, hpw, hbounds, hlast⟩ := probeStarts_facts L chunk hchunk hL
  cases hxr : probeStarts L chunk with
  | nil => exact absurd hxr hne
  | cons x₀ rest =>
      rw [hxr] at hpw hbounds hlast
      unfold checkZip
      have hlen : ({ initSt chunk with length := L } : St).length = L := rfl
      have hchk : ({ initSt chunk with length := L } : St).chunk = chunk := rfl
      rw [hlen, hchk, hxr]
      have hloop := checkZipLoop_false_from_empty pmove x₀ rest
        ({ initSt chunk with length := L }) rfl hpw (by rw [hlen]; exact hbounds)
      rw [hlen] at hloop
      rw [← hlast]
      exact hloop

/-- C1, amended: if the directory parser keeps failing with `BadZipFile`
even after the probe has walked back to offset 0 and the entire object has
been mirrored as the single interval `[0, L-1]`, `_check_zip` swallows the
final full-coverage parse failure (`except BadZipFile: pass`) and opening
COMPLETES SUCCESSFULLY; no corrupt-archive error is surfaced. -/
theorem C1_swallowed (pmove : Tracker → Int → Int) (chunk L : Int) (head : HeadResp)
    (hchunk : 1 ≤ chunk) (hL : 2 ≤ L)
    (hstatus : head.status = 200) (hlen : head.contentLength = L)
    (hrange : hasSub bytesChars (head.acceptRanges.getD noneChars) = true) :
    openOk (aenter (fun _ _ => true) (fun _ => false) pmove chunk head) = true ∧
    (openSt (aenter (fun _ _ => true) (fun _ => false) pmove chunk head)).tr =
      ⟨[0], [L - 1]⟩ := by
  have hcz := checkZip_false pmove chunk L hchunk hL
  have haen : aenter (fun _ _ => true) (fun _ => false) pmove chunk head =
      .ok (checkZip (fun _ _ => true) (fun _ => false) pmove
        ({ initSt chunk with length := L })).1 := by
    simp only [aenter]
    rw [hstatus, if_neg (by norm_num), if_neg (by norm_num), hlen, hrange, if_pos rfl,
      hcz.2, if_pos rfl]
  rw [haen]
  exact ⟨rfl, hcz.1⟩

/-- Witness for the amended C1 at length 25, chunk size 10. -/
theorem C1_swallowed_witness :
    (1 : Int) ≤ 10 ∧ (2 : Int) ≤ 25 ∧
    (openOk (aenter (fun _ _ => true) (fun _ => false) (fun _ p => p) 10
        ⟨200, 25, some bytesChars⟩) = true ∧
     (openSt (aenter (fun _ _ => true) (fun _ => false) (fun _ p => p) 10
        ⟨200, 25, some bytesChars⟩)).tr = ⟨[0], [24]⟩) :=
  ⟨by decide, by decide,
    C1_swallowed (fun _ p => p) 10 25 ⟨200, 25, some bytesChars⟩
      (by decide) (by decide) rfl rfl (by decide)⟩

/-- C9: every cursor-moving internal fetch operation restores the caller's
cursor on every exit path. `_download` restores it whether all ranged
fetches succeed or a transport error aborts the loop; the probing loop of
`_check_zip` restores it across downloads and parse attempts, whether it
breaks on success, propagates a transport error, or exhausts all starts. -/
theorem C9_pos_restored :
    (∀ (net : Int → Int → Bool) (a b : Int) (s : St),
      ((downloadR net a b s).1).pos = s.pos) ∧
    (∀ (net : Int → Int → Bool) (oracle : Tracker → Bool)
        (pmove : Tracker → Int → Int) (s : St),
      ((checkZip net oracle pmove s).1).pos = s.pos) :=
  ⟨downloadR_pos, fun net oracle pmove s => checkZipLoop_pos net oracle pmove _ s⟩

/-- C7: when the metadata response does not confirm byte-range support, the
open fails with the unsupported-range error while the fetch log is still
empty and no parse was attempted: failure happens before any ranged
request. -/
theorem C7_range_unsupported (net : Int → Int → Bool) (oracle : Tracker → Bool)
    (pmove : Tracker → Int → Int) (chunk : Int) (head : HeadResp)
    (hstatus : head.status = 200)
    (hrange : hasSub bytesChars (head.acceptRanges.getD noneChars) = false) :
    aenter net oracle pmove chunk head =
      .error (.rangeUnsupported, { initSt chunk with length := head.contentLength }) ∧
    ({ initSt chunk with length := head.contentLength } : St).fetched = [] ∧
    ({ initSt chunk with length := head.contentLength } : St).attempts = 0 := by
  refine ⟨?_, rfl, rfl⟩
  simp only [aenter]
  rw [hstatus, if_neg (by norm_num), if_neg (by norm_num), hrange,
    if_neg (by simp)]

/-- Witness for C7: a HEAD response with no `Accept-Ranges` header at all. -/
theorem C7_range_unsupported_witness :
    (⟨200, 42, none⟩ : HeadResp).status = 200 ∧
    hasSub bytesChars ((⟨200, 42, none⟩ : HeadResp).acceptRanges.getD noneChars) = false ∧
    (aenter (fun _ _ => true) (fun _ => true) (fun _ p => p) 10 ⟨200, 42, none⟩ =
      .error (.rangeUnsupported, { initSt 10 with length := 42 }) ∧
     ({ initSt 10 with length := 42 } : St).fetched = [] ∧
     ({ initSt 10 with length := 42 } : St).attempts = 0) :=
  ⟨rfl, by decide,
    C7_range_unsupported (fun _ _ => true) (fun _ => true) (fun _ p => p) 10
      ⟨200, 42, none⟩ rfl (by decide)⟩

/-- C10: an object whose negotiated length is at most one byte leaves the
probe-start list empty: open succeeds immediately with zero ranged fetches
and zero parse attempts — no archive validation happens at all. -/
theorem C10_tiny_object (net : Int → Int → Bool) (oracle : Tracker → Bool)
    (pmove : Tracker → Int → Int) (chunk : Int) (head : HeadResp)
    (hstatus : head.status = 200) (hlen : head.contentLength ≤ 1)
    (hrange : hasSub bytesChars (head.acceptRanges.getD noneChars) = true) :
    aenter net oracle pmove chunk head =
      .ok ({ initSt chunk with length := head.contentLength }) ∧
    ({ initSt chunk with length := head.contentLength } : St).fetched = [] ∧
    ({ initSt chunk with length := head.contentLength } : St).attempts = 0 := by
  refine ⟨?_, rfl, rfl⟩
  have hcz : checkZip net oracle pmove ({ initSt chunk with length := head.contentLength }) =
      (({ initSt chunk with length := head.contentLength }), true) := by
    unfold checkZip
    have h1 : ({ initSt chunk with length := head.contentLength } : St).length =
        head.contentLength := rfl
    have h2 : ({ initSt chunk with length := head.contentLength } : St).chunk = chunk := rfl
    rw [h1, h2, probeStarts_nil _ _ hlen]
    rfl
  simp only [aenter]
  rw [hstatus, if_neg (by norm_num), if_neg (by norm_num), hrange, if_pos rfl,
    hcz]
  rfl

/-- Witness for C10 at length 1. -/
theorem C10_tiny_object_witness :
    (⟨200, 1, some bytesChars⟩ : HeadResp).status = 200 ∧
    (⟨200, 1, some bytesChars⟩ : HeadResp).contentLength ≤ 1 ∧
    hasSub bytesChars ((⟨200, 1, some bytesChars⟩ : HeadResp).acceptRanges.getD noneChars) = true ∧
    (aenter (fun _ _ => true) (fun _ => false) (fun _ p => p) 10 ⟨200, 1, some bytesChars⟩ =
      .ok ({ initSt 10 with length := 1 }) ∧
     ({ initSt 10 with length := 1 } : St).fetched = [] ∧
     ({ initSt 10 with length := 1 } : St).attempts = 0) :=
  ⟨rfl, by decide, by decide,
    C10_tiny_object (fun _ _ => true) (fun _ => false) (fun _ p => p) 10
      ⟨200, 1, some bytesChars⟩ rfl (by decide) (by decide)⟩

/-- C2, amended: `read` with negative `size` (all fetches succeeding)
returns all offsets from the cursor to the end of the object, but the
window it mirrors first is `[max(0, length - max(size, chunkSize)),
length-1]` — anchored at the END of the object, not at the cursor. The
returned offsets are guaranteed to lie inside recorded intervals only when
the cursor is inside that window. -/
theorem C2_read_negative (s : St) (size : Int) (hinv : Inv s.tr)
    (hsize : size < 0) (hchunk : 1 ≤ s.chunk) (hlen : 1 ≤ s.length) :
    ((readF (fun _ _ => true) size s).2.2 = true) ∧
    ((readF (fun _ _ => true) size s).2.1 = (s.pos, max 0 (s.length - s.pos))) ∧
    (∀ z, max 0 (s.length - max size s.chunk) ≤ z → z ≤ s.length - 1 →
      covers ((readF (fun _ _ => true) size s).1).tr z) ∧
    (max 0 (s.length - max size s.chunk) ≤ s.pos →
      ∀ z, s.pos ≤ z → z ≤ s.length - 1 →
        covers ((readF (fun _ _ => true) size s).1).tr z) := by
  have hr : readF (fun _ _ => true) size s =
      ({ s with tr := (downloadPure s.tr (max 0 (s.length - max size s.chunk))
                        (s.length - 1)).2,
                fetched := s.fetched ++
                  (downloadPure s.tr (max 0 (s.length - max size s.chunk))
                    (s.length - 1)).1,
                pos := s.pos + max 0 (s.length - s.pos) },
       (s.pos, max 0 (s.length - s.pos)), true) := by
    simp only [readF, if_pos hsize, downloadR_true, if_true]
  have hstep := downloadPure_spec s.tr (max 0 (s.length - max size s.chunk))
    (s.length - 1) hinv (by omega)
  have hcov : ∀ z, max 0 (s.length - max size s.chunk) ≤ z → z ≤ s.length - 1 →
      covers ((readF (fun _ _ => true) size s).1).tr z := by
    intro z h1 h2
    rw [hr]
    exact (hstep.2.1 z).mpr (Or.inr ⟨h1, h2⟩)
  refine ⟨by rw [hr], by rw [hr], hcov, ?_⟩
  intro hp z hz1 hz2
  exact hcov z (le_trans hp hz1) hz2

/-- Witness for the amended C2: cursor at 95, length 100, chunk size 10. -/
theorem C2_read_negative_witness :
    Inv (⟨⟨[], []⟩, 95, 100, 10, [], 0⟩ : St).tr ∧ (-1 : Int) < 0 ∧
    (1 : Int) ≤ (⟨⟨[], []⟩, 95, 100, 10, [], 0⟩ : St).chunk ∧
    (1 : Int) ≤ (⟨⟨[], []⟩, 95, 100, 10, [], 0⟩ : St).length ∧
    (((readF (fun _ _ => true) (-1) ⟨⟨[], []⟩, 95, 100, 10, [], 0⟩).2.2 = true) ∧
     ((readF (fun _ _ => true) (-1) ⟨⟨[], []⟩, 95, 100, 10, [], 0⟩).2.1 =
       ((⟨⟨[], []⟩, 95, 100, 10, [], 0⟩ : St).pos,
        max 0 ((⟨⟨[], []⟩, 95, 100, 10, [], 0⟩ : St).length -
          (⟨⟨[], []⟩, 95, 100, 10, [], 0⟩ : St).pos))) ∧
     (∀ z, max 0 ((⟨⟨[], []⟩, 95, 100, 10, [], 0⟩ : St).length -
         max (-1) (⟨⟨[], []⟩, 95, 100, 10, [], 0⟩ : St).chunk) ≤ z →
       z ≤ (⟨⟨[], []⟩, 95, 100, 10, [], 0⟩ : St).length - 1 →
       covers ((readF (fun _ _ => true) (-1) ⟨⟨[], []⟩, 95, 100, 10, [], 0⟩).1).tr z) ∧
     (max 0 ((⟨⟨[], []⟩, 95, 100, 10, [], 0⟩ : St).length -
         max (-1) (⟨⟨[], []⟩, 95, 100, 10, [], 0⟩ : St).chunk) ≤
        (⟨⟨[], []⟩, 95, 100, 10, [], 0⟩ : St).pos →
      ∀ z, (⟨⟨[], []⟩, 95, 100, 10, [], 0⟩ : St).pos ≤ z →
        z ≤ (⟨⟨[], []⟩, 95, 100, 10, [], 0⟩ : St).length - 1 →
        covers ((readF (fun _ _ => true) (-1) ⟨⟨[], []⟩, 95, 100, 10, [], 0⟩).1).tr z)) :=
  ⟨by decide, by decide, by decide, by decide,
    C2_read_negative ⟨⟨[], []⟩, 95, 100, 10, [], 0⟩ (-1)
      (by decide) (by decide) (by decide) (by decide)⟩

/-- Membership in the executable offset range. -/
theorem mem_intRange (a b z : Int) : z ∈ intRange a b ↔ (a ≤ z ∧ z ≤ b) := by
  unfold intRange
  constructor
  · intro hz
    obtain ⟨k, hk, rfl⟩ := List.mem_map.mp hz
    have := List.mem_range.mp hk
    omega
  · intro hz
    refine List.mem_map.mpr ⟨(z - a).toNat, List.mem_range.mpr (by omega), by omega⟩

/-- The executable coverage scan follows from pointwise coverage. -/
theorem coveredUpTo_of_covers (t : Tracker) (a b : Int)
    (h : ∀ z, a ≤ z → z ≤ b → covers t z) : coveredUpTo t a b = true := by
  unfold coveredUpTo
  rw [List.all_eq_true]
  intro z hz
  have hm := (mem_intRange a b z).mp hz
  exact decide_eq_true (h z hm.1 hm.2)

/-- When the object length is a positive multiple of the chunk size (and the
chunk size is at least 2), the first probe start is exactly
`length - chunkSize`. -/
theorem probeStarts_multiple (m c : Nat) (hc : 2 ≤ c) (hm : 1 ≤ m) :
    ∃ rest, probeStarts ((m * c : Nat) : Int) ((c : Nat) : Int) =
      (((m * c : Nat) : Int) - (c : Int)) :: rest := by
  have hc0 : 0 < c := by omega
  have hKc : c ≤ m * c := Nat.le_mul_of_pos_left c hm
  have htoN1 : (((m * c : Nat) : Int) - 1).toNat = m * c - 1 := by omega
  have htoN2 : ((c : Nat) : Int).toNat = c := by omega
  have hdiv : (m * c - 1 + c - 1) / c = m := by
    rw [show m * c - 1 + c - 1 = c * m + (c - 2) from by rw [mul_comm c m]; omega]
    rw [Nat.mul_add_div hc0, Nat.div_eq_of_lt (by omega), Nat.add_zero]
  unfold probeStarts
  rw [htoN1, htoN2, hdiv]
  obtain ⟨m', rfl⟩ : ∃ m', m = m' + 1 := ⟨m - 1, by omega⟩
  rw [List.range_succ, List.map_append]
  refine ⟨(List.map (fun k : Nat => (k : Int) * (c : Int)) (List.range m')).reverse, ?_⟩
  rw [show List.map (fun k : Nat => (k : Int) * ((c : Nat) : Int)) [m'] =
    [((m' : Nat) : Int) * (c : Int)] from rfl]
  rw [List.reverse_concat]
  congr 1
  push_cast
  ring

/-- The probing loop when the parser succeeds on the very first trailing
window: exactly one ranged fetch is issued, covering `[x₀, L-1]` only. -/
theorem checkZip_first_hit (oracle : Tracker → Bool) (pmove : Tracker → Int → Int)
    (chunk L : Int) (x₀ : Int) (rest : List Int)
    (hps : probeStarts L chunk = x₀ :: rest) (hx : x₀ ≤ L - 1)
    (horacle : oracle ⟨[x₀], [L - 1]⟩ = true) :
    ((checkZip (fun _ _ => true) oracle pmove ({ initSt chunk with length := L })).1).tr =
      ⟨[x₀], [L - 1]⟩ ∧
    ((checkZip (fun _ _ => true) oracle pmove
      ({ initSt chunk with length := L })).1).fetched = [(x₀, L - 1)] ∧
    (checkZip (fun _ _ => true) oracle pmove ({ initSt chunk with length := L })).2 =
      true := by
  have hdp : downloadPure (⟨[], []⟩ : Tracker) x₀ (L - 1) =
      ([(x₀, L - 1)], ⟨[x₀], [L - 1]⟩) := downloadPure_empty x₀ (L - 1) hx
  unfold checkZip
  have hlen : ({ initSt chunk with length := L } : St).length = L := rfl
  have hchk : ({ initSt chunk with length := L } : St).chunk = chunk := rfl
  rw [hlen, hchk, hps]
  simp only [checkZipLoop, initSt, downloadR_true, hdp, horacle, if_true]
  refine ⟨?_, ?_, ?_⟩ <;> trivial

/-- C8, amended: for an object whose length `L` is a positive multiple of
the chunk size `c ≥ 2` and whose directory parses as soon as the last `c`
bytes are mirrored, opening issues exactly one ranged fetch — the interval
`[L-c, L-1]`, of size exactly `c` — and no byte of `[0, L-c)` is ever
fetched or mirrored. (For lengths that are not such multiples the first
trailing window differs from `c` bytes and extra fetches can occur, see the
counterexample.) -/
theorem C8_one_fetch (oracle : Tracker → Bool) (pmove : Tracker → Int → Int)
    (m c : Nat) (head : HeadResp) (hc : 2 ≤ c) (hm : 1 ≤ m)
    (hstatus : head.status = 200)
    (hlen : head.contentLength = ((m * c : Nat) : Int))
    (hrange : hasSub bytesChars (head.acceptRanges.getD noneChars) = true)
    (horacle : ∀ t : Tracker,
      (∀ z : Int, ((m * c : Nat) : Int) - (c : Int) ≤ z →
        z ≤ ((m * c : Nat) : Int) - 1 → covers t z) → oracle t = true) :
    openOk (aenter (fun _ _ => true) oracle pmove ((c : Nat) : Int) head) = true ∧
    (openSt (aenter (fun _ _ => true) oracle pmove ((c : Nat) : Int) head)).fetched =
      [(((m * c : Nat) : Int) - (c : Int), ((m * c : Nat) : Int) - 1)] ∧
    (openSt (aenter (fun _ _ => true) oracle pmove ((c : Nat) : Int) head)).tr =
      ⟨[((m * c : Nat) : Int) - (c : Int)], [((m * c : Nat) : Int) - 1]⟩ := by
  have hKc : c ≤ m * c := Nat.le_mul_of_pos_left c hm
  obtain ⟨rest, hps⟩ := probeStarts_multiple m c hc hm
  have hor : oracle ⟨[((m * c : Nat) : Int) - (c : Int)],
      [((m * c : Nat) : Int) - 1]⟩ = true := by
    refine horacle _ ?_
    intro z h1 h2
    exact ⟨(((m * c : Nat) : Int) - (c : Int), ((m * c : Nat) : Int) - 1),
      by simp [Tracker.pairs], h1, h2⟩
  have hcz := checkZip_first_hit oracle pmove ((c : Nat) : Int) ((m * c : Nat) : Int)
    (((m * c : Nat) : Int) - (c : Int)) rest hps (by omega) hor
  have haen : aenter (fun _ _ => true) oracle pmove ((c : Nat) : Int) head =
      .ok (checkZip (fun _ _ => true) oracle pmove
        ({ initSt ((c : Nat) : Int) with length := ((m * c : Nat) : Int) })).1 := by
    simp only [aenter]
    rw [hstatus, if_neg (by norm_num), if_neg (by norm_num), hlen, hrange, if_pos rfl,
      hcz.2.2, if_pos rfl]
  rw [haen]
  exact ⟨rfl, hcz.2.1, hcz.1⟩

/-- Witness for the amended C8 at length 100, chunk size 10: one fetch of
`[90, 99]`. -/
theorem C8_one_fetch_witness :
    (2 ≤ 10) ∧ (1 ≤ 10) ∧
    (⟨200, 100, some bytesChars⟩ : HeadResp).status = 200 ∧
    (⟨200, 100, some bytesChars⟩ : HeadResp).contentLength = ((10 * 10 : Nat) : Int) ∧
    hasSub bytesChars ((⟨200, 100, some bytesChars⟩ : HeadResp).acceptRanges.getD
      noneChars) = true ∧
    (openOk (aenter (fun _ _ => true)
        (fun t => coveredUpTo t (((10 * 10 : Nat) : Int) - (10 : Int))
          (((10 * 10 : Nat) : Int) - 1))
        (fun _ p => p) ((10 : Nat) : Int) ⟨200, 100, some bytesChars⟩) = true ∧
     (openSt (aenter (fun _ _ => true)
        (fun t => coveredUpTo t (((10 * 10 : Nat) : Int) - (10 : Int))
          (((10 * 10 : Nat) : Int) - 1))
        (fun _ p => p) ((10 : Nat) : Int) ⟨200, 100, some bytesChars⟩)).fetched =
       [(((10 * 10 : Nat) : Int) - (10 : Int), ((10 * 10 : Nat) : Int) - 1)] ∧
     (openSt (aenter (fun _ _ => true)
        (fun t => coveredUpTo t (((10 * 10 : Nat) : Int) - (10 : Int))
          (((10 * 10 : Nat) : Int) - 1))
        (fun _ p => p) ((10 : Nat) : Int) ⟨200, 100, some bytesChars⟩)).tr =
       ⟨[((10 * 10 : Nat) : Int) - (10 : Int)], [((10 * 10 : Nat) : Int) - 1]⟩) :=
  ⟨by decide, by decide, rfl, by decide, by decide,
    C8_one_fetch
      (fun t => coveredUpTo t (((10 * 10 : Nat) : Int) - (10 : Int))
        (((10 * 10 : Nat) : Int) - 1))
      (fun _ p => p) 10 10 ⟨200, 100, some bytesChars⟩
      (by decide) (by decide) rfl (by decide) (by decide)
      (fun t h => coveredUpTo_of_covers t _ _ h)⟩

/-! ### Concrete claim theorems -/

/-- C4: after any finite sequence of well-formed `reserve`/download calls
on an initially empty tracker, the recorded intervals are sorted by start,
pairwise non-overlapping, and their union as sets of byte offsets equals
the union of all requested ranges. -/
theorem C4_tracker_invariant (reqs : List (Int × Int))
    (hreqs : ∀ p ∈ reqs, p.1 ≤ p.2) :
    ((runReserves reqs ⟨[], []⟩).pairs.Pairwise (fun p q => p.1 < q.1 ∧ p.2 < q.1)) ∧
    (∀ z, covers (runReserves reqs ⟨[], []⟩) z ↔ ∃ p ∈ reqs, p.1 ≤ z ∧ z ≤ p.2) := by
  have h := runReserves_spec reqs ⟨[], []⟩ inv_empty hreqs
  constructor
  · refine List.Pairwise.imp_of_mem ?_ h.1.2.1
    intro p q hp hq hr
    exact ⟨lt_of_le_of_lt (h.1.2.2 p hp) hr, hr⟩
  · intro z
    rw [h.2 z]
    have hempty : ¬ covers ⟨[], []⟩ z := by
      rintro ⟨p, hp, -⟩
      simp [Tracker.pairs] at hp
    tauto

/-- Witness for C4 at the disjoint-ranges example `reserve(0,9)`,
`reserve(100,109)`. -/
theorem C4_tracker_invariant_witness :
    (∀ p ∈ [((0 : Int), (9 : Int)), (100, 109)], p.1 ≤ p.2) ∧
    (((runReserves [((0 : Int), (9 : Int)), (100, 109)] ⟨[], []⟩).pairs.Pairwise
      (fun p q => p.1 < q.1 ∧ p.2 < q.1)) ∧
    (∀ z, covers (runReserves [((0 : Int), (9 : Int)), (100, 109)] ⟨[], []⟩) z ↔
      ∃ p ∈ [((0 : Int), (9 : Int)), (100, 109)], p.1 ≤ z ∧ z ≤ p.2)) :=
  ⟨by decide, C4_tracker_invariant [(0, 9), (100, 109)] (by decide)⟩

/-- C6: for a well-formed range `[a, b]` not yet fully covered, the first
`reserve(a,b)` emits a nonempty gap list, and an immediately repeated
`reserve(a,b)` emits no gap (so `_download` issues no fetch) and leaves the
interval lists unchanged. -/
theorem C6_idempotence (t : Tracker) (a b : Int) (hinv : Inv t) (hab : a ≤ b)
    (hmiss : ∃ z, a ≤ z ∧ z ≤ b ∧ ¬ covers t z) :
    (downloadPure t a b).1 ≠ [] ∧
    (downloadPure (downloadPure t a b).2 a b).1 = [] ∧
    (downloadPure (downloadPure t a b).2 a b).2 = (downloadPure t a b).2 := by
  obtain ⟨z, hz1, hz2, hz3⟩ := hmiss
  have hstep := downloadPure_spec t a b hinv hab
  have hb := downloadPure_pairs t a b hinv hab
  have hinv1 : Inv (downloadPure t a b).2 := hstep.1
  have hpairs1 : (downloadPure t a b).2.pairs = (reservePairs t.pairs a b).2 := by
    unfold Tracker.pairs
    rw [hb.2.1, hb.2.2, zip_proj]
    rfl
  obtain ⟨P, S, s, e, hshape, hPa, hsa, hbe, hSb⟩ :=
    reservePairs_shape t.pairs a b hinv.2.1 hinv.2.2
  have hid : reservePairs ((downloadPure t a b).2.pairs) a b =
      ([], (downloadPure t a b).2.pairs) := by
    rw [hpairs1, hshape]
    exact reserve_covered_id P S a b s e hab hPa hsa hbe hSb
  have hb1 := downloadPure_pairs (downloadPure t a b).2 a b hinv1 hab
  refine ⟨?_, ?_, ?_⟩
  · intro hnil
    have hg := (hstep.2.2.1 z).mpr ⟨hz1, hz2, hz3⟩
    rw [hnil] at hg
    simp at hg
  · rw [hb1.1, hid]
  · ext : 1
    · rw [hb1.2.1, hid]
      exact List.map_fst_zip _ _ hinv1.1.le
    · rw [hb1.2.2, hid]
      exact List.map_snd_zip _ _ hinv1.1.ge

/-- Witness for C6: empty tracker, range `[0, 5]`. -/
theorem C6_idempotence_witness :
    Inv ⟨[], []⟩ ∧ (0 : Int) ≤ 5 ∧
    (∃ z, (0 : Int) ≤ z ∧ z ≤ 5 ∧ ¬ covers ⟨[], []⟩ z) ∧
    ((downloadPure ⟨[], []⟩ 0 5).1 ≠ [] ∧
     (downloadPure (downloadPure ⟨[], []⟩ 0 5).2 0 5).1 = [] ∧
     (downloadPure (downloadPure ⟨[], []⟩ 0 5).2 0 5).2 = (downloadPure ⟨[], []⟩ 0 5).2) :=
  ⟨by decide, by decide, ⟨0, by decide, by decide, by decide⟩,
    C6_idempotence ⟨[], []⟩ 0 5 (by decide) (by decide)
      ⟨0, by decide, by decide, by decide⟩⟩

/-- C3, counterexample. `reserve(0,9)` followed by `reserve(10,19)` leaves
TWO recorded intervals `(0,9)`, `(10,19)`: `bisect_left(self._right, 10)`
skips the interval ending at `9`, so an exactly adjacent reservation does
not merge with it, refuting both the claimed single interval `(0,19)` and
the claimed impossibility of `end_i + 1 ≥ start_{i+1}` (here `9 + 1 = 10`). -/
theorem C3_counterexample :
    runReserves [(0, 9), (10, 19)] ⟨[], []⟩ = ⟨[0, 10], [9, 19]⟩ ∧
    runReserves [(0, 9), (10, 19)] ⟨[], []⟩ ≠ ⟨[0], [19]⟩ := by
  decide

/-- C3, amended: a reservation exactly adjacent to an existing interval does
NOT merge with it — `reserve(0,9)` then `reserve(10,19)` leaves the two
intervals `(0,9)` and `(10,19)`, so `end_i + 1 = start_{i+1}` can persist —
whereas a reservation that overlaps an existing interval does merge:
`reserve(0,9)` then `reserve(9,19)` leaves the single interval `(0,19)`. -/
theorem C3_adjacent_unmerged :
    runReserves [(0, 9), (10, 19)] ⟨[], []⟩ = ⟨[0, 10], [9, 19]⟩ ∧
    runReserves [(0, 9), (9, 19)] ⟨[], []⟩ = ⟨[0], [19]⟩ := by
  decide

/-- C5: starting from an empty tracker, `reserve(0,9)` emits exactly the gap
`[0,9]` (one fetch) and records `(0,9)`; `reserve(5,14)` then emits exactly
the gap `[10,14]` (one fetch, never touching the already-mirrored `[5,9]`)
and leaves the single merged interval `(0,14)`. -/
theorem C5_merge_correctness :
    (downloadPure ⟨[], []⟩ 0 9).1 = [(0, 9)] ∧
    (downloadPure ⟨[], []⟩ 0 9).2 = ⟨[0], [9]⟩ ∧
    (downloadPure ⟨[0], [9]⟩ 5 14).1 = [(10, 14)] ∧
    (downloadPure ⟨[0], [9]⟩ 5 14).2 = ⟨[0], [14]⟩ := by
  decide

/-- C1, counterexample. Object of length 25, chunk size 10, a parser that
fails (`BadZipFile`) on every attempt: the probe walks back to offset 0,
the whole object ends up mirrored (`coveredUpTo … 0 24`), and yet
`__aenter__` completes successfully — the final full-coverage parse failure
is swallowed by `except BadZipFile: pass`, not surfaced to the caller. -/
theorem C1_counterexample :
    openOk (aenter (fun _ _ => true) (fun _ => false) (fun _ p => p) 10
      ⟨200, 25, some bytesChars⟩) = true ∧
    (openSt (aenter (fun _ _ => true) (fun _ => false) (fun _ p => p) 10
      ⟨200, 25, some bytesChars⟩)).tr = ⟨[0], [24]⟩ ∧
    coveredUpTo ⟨[0], [24]⟩ 0 24 = true ∧
    (openSt (aenter (fun _ _ => true) (fun _ => false) (fun _ p => p) 10
      ⟨200, 25, some bytesChars⟩)).attempts = 3 := by
  decide

/-- C2, counterexample. Cursor at 0, length 100, chunk size 10, nothing
mirrored yet: `read(-1)` downloads only `[90,99]` (because
`start = max(0, stop - download_size)` anchors the window at the END of the
object, not at the cursor) and then hands back the offsets `[0,100)` from
the mirror — offset 0 is outside every recorded interval at the moment it
is copied out, refuting both the claimed coverage of `[position, length-1]`
and the claimed "returned bytes ⊆ recorded intervals" invariant. -/
theorem C2_counterexample :
    readF (fun _ _ => true) (-1) ⟨⟨[], []⟩, 0, 100, 10, [], 0⟩ =
      (⟨⟨[90], [99]⟩, 100, 100, 10, [(90, 99)], 0⟩, (0, 100), true) ∧
    ¬ covers ⟨[90], [99]⟩ 0 := by
  decide

/-- C8, counterexample. Length 95, chunk size 10, a parser that succeeds as
soon as the last `chunkSize` bytes `[85,94]` are mirrored: the first probe
start is `90` (the largest multiple of 10 below `length - 1 = 94`), so the
first fetch `[90,94]` has size 5, the parse still fails, and a second fetch
`[80,89]` is issued — two ranged fetches, the second reaching into
`[0, L - chunkSize) = [0,85)` — refuting "exactly one ranged fetch of size
chunkSize" and "no byte in `[0, L-chunkSize)` is ever fetched". -/
theorem C8_counterexample :
    openOk (aenter (fun _ _ => true) (fun t => coveredUpTo t 85 94) (fun _ p => p) 10
      ⟨200, 95, some bytesChars⟩) = true ∧
    (openSt (aenter (fun _ _ => true) (fun t => coveredUpTo t 85 94) (fun _ p => p) 10
      ⟨200, 95, some bytesChars⟩)).fetched = [(90, 94), (80, 89)] ∧
    ¬ ([(90, 94), (80, 89)] : List (Int × Int)).length = 1 := by
  decide

end LazyZip
